import Mathlib

/-!
Verification of the Digital Ghost extraction/decode/decrypt pipeline.

Shallow embedding of the Python sources `decoder.py`, `fragment_assembler.py`,
`lsb_extractor.py` and `spiral_reader.py`.  Python `str` values are modelled as
lists of Unicode code points (`List Nat`), Python `bytes` as lists of byte
values (`List Nat`, each < 256).  Fallible operations return `Option`; a
`none` stands for the Python function returning `None` (or an uncaught
exception where noted).
-/

/-- Code points of a Lean string literal, used to write concrete Python `str`
values in statements. -/
def pyStr (s : String) : List Nat := s.data.map Char.toNat

/-- Unicode white space, as recognised by Python `str.strip` / `str.isspace`
(the code points with the White_Space property). -/
def isSpaceCode (c : Nat) : Bool :=
  c = 9 || c = 10 || c = 11 || c = 12 || c = 13 || c = 28 || c = 29 ||
  c = 30 || c = 31 || c = 32 || c = 133 || c = 160 || c = 0x1680 ||
  (0x2000 ≤ c && c ≤ 0x200A) || c = 0x2028 || c = 0x2029 || c = 0x202F ||
  c = 0x205F || c = 0x3000

/-- Python `str.strip()`: drop leading and trailing white space. -/
def pyStrip (s : List Nat) : List Nat :=
  ((s.dropWhile isSpaceCode).reverse.dropWhile isSpaceCode).reverse

/-- UTF-8 encoding of one code point (Python `str.encode()`); inputs are
scalar values, which is all the pipeline ever produces. -/
def utf8EncodeChar (c : Nat) : List Nat :=
  if c < 0x80 then [c]
  else if c < 0x800 then [0xC0 + c / 64, 0x80 + c % 64]
  else if c < 0x10000 then [0xE0 + c / 4096, 0x80 + c / 64 % 64, 0x80 + c % 64]
  else [0xF0 + c / 262144, 0x80 + c / 4096 % 64, 0x80 + c / 64 % 64, 0x80 + c % 64]

/-- Python `str.encode()` (UTF-8). -/
def utf8Encode (s : List Nat) : List Nat := s.flatMap utf8EncodeChar

/-- One step of CPython's UTF-8 decoder with `errors='ignore'`: returns the
decoded code point (if the head forms a valid sequence) and the number of
input bytes consumed (at least 1; an invalid sequence consumes its maximal
valid subpart and emits nothing). -/
def utf8Step (b : Nat) (rest : List Nat) : Option Nat × Nat :=
  if b < 0x80 then (some b, 1)
  else if 0xC2 ≤ b && b ≤ 0xDF then
    match rest with
    | b2 :: _ =>
      if 0x80 ≤ b2 && b2 ≤ 0xBF then (some ((b - 0xC0) * 64 + (b2 - 0x80)), 2)
      else (none, 1)
    | [] => (none, 1)
  else if 0xE0 ≤ b && b ≤ 0xEF then
    let lo2 := if b = 0xE0 then 0xA0 else 0x80
    let hi2 := if b = 0xED then 0x9F else 0xBF
    match rest with
    | b2 :: rest2 =>
      if lo2 ≤ b2 && b2 ≤ hi2 then
        match rest2 with
        | b3 :: _ =>
          if 0x80 ≤ b3 && b3 ≤ 0xBF then
            (some ((b - 0xE0) * 4096 + (b2 - 0x80) * 64 + (b3 - 0x80)), 3)
          else (none, 2)
        | [] => (none, 2)
      else (none, 1)
    | [] => (none, 1)
  else if 0xF0 ≤ b && b ≤ 0xF4 then
    let lo2 := if b = 0xF0 then 0x90 else 0x80
    let hi2 := if b = 0xF4 then 0x8F else 0xBF
    match rest with
    | b2 :: rest2 =>
      if lo2 ≤ b2 && b2 ≤ hi2 then
        match rest2 with
        | b3 :: rest3 =>
          if 0x80 ≤ b3 && b3 ≤ 0xBF then
            match rest3 with
            | b4 :: _ =>
              if 0x80 ≤ b4 && b4 ≤ 0xBF then
                (some ((b - 0xF0) * 262144 + (b2 - 0x80) * 4096 +
                       (b3 - 0x80) * 64 + (b4 - 0x80)), 4)
              else (none, 3)
            | [] => (none, 3)
          else (none, 2)
        | [] => (none, 2)
      else (none, 1)
    | [] => (none, 1)
  else (none, 1)

/-- Python `bytes.decode('utf-8', errors='ignore')`; the fuel argument is an
upper bound on the number of decoding steps (the input length suffices since
every step consumes at least one byte). -/
def utf8DecodeIgnoreAux : Nat → List Nat → List Nat
  | 0, _ => []
  | _, [] => []
  | fuel + 1, b :: rest =>
    match utf8Step b rest with
    | (some c, k) => c :: utf8DecodeIgnoreAux fuel ((b :: rest).drop k)
    | (none, k) => utf8DecodeIgnoreAux fuel ((b :: rest).drop k)

/-- Python `bytes.decode('utf-8', errors='ignore')`. -/
def utf8DecodeIgnore (l : List Nat) : List Nat := utf8DecodeIgnoreAux l.length l

/-- `decoder.py` line 76: the `rot_13` codec on one code point — rotates the
26 ASCII letters by 13, case-preserving, and fixes everything else. -/
def rot13Char (c : Nat) : Nat :=
  if 65 ≤ c ∧ c ≤ 90 then 65 + (c - 65 + 13) % 26
  else if 97 ≤ c ∧ c ≤ 122 then 97 + (c - 97 + 13) % 26
  else c

/-- `decoder.py` `decode_rot13` (lines 64–87): `codecs.decode(data, 'rot_13')`.
For `str` input the codec never raises, so the embedding is total (the
Python `except` branch returning `None` is unreachable for text input). -/
def decode_rot13 (s : List Nat) : List Nat := s.map rot13Char

/-- `fragment_assembler.py` `xor_decrypt` (lines 36–57) on byte sequences
(`str` arguments are UTF-8 encoded first by the code).  `none` models the
uncaught `ZeroDivisionError` raised by `len(data) // len(key)` when the key
is empty. -/
def xor_decrypt (data key : List Nat) : Option (List Nat) :=
  if key.length = 0 then none
  else
    let keyRepeated :=
      ((List.replicate (data.length / key.length + 1) key).flatten).take data.length
    some (data.zipWith (fun d k => d ^^^ k) keyRepeated)

/-- CPython `binascii.table_a2b_base64`: the 6-bit value of a base64 data
character, `none` for every character outside the alphabet. -/
def b64Char (c : Nat) : Option Nat :=
  if 65 ≤ c ∧ c ≤ 90 then some (c - 65)
  else if 97 ≤ c ∧ c ≤ 122 then some (c - 97 + 26)
  else if 48 ≤ c ∧ c ≤ 57 then some (c - 48 + 52)
  else if c = 43 then some 62
  else if c = 47 then some 63
  else none

/-- CPython `binascii.a2b_base64` with `strict_mode=False` (the call made by
`base64.b64decode(..., validate=False)`): characters outside the alphabet are
discarded; `'='` terminates the scan once the current quantum holds at least
two data characters and enough pads; a scan that ends mid-quantum raises
`binascii.Error` (`none`).  State: remaining input, position in the current
quantum (0–3), carried bits, pad count, reversed output. -/
def a2bLoop : List Nat → Nat → Nat → Nat → List Nat → Option (List Nat)
  | [], quadPos, _, _, acc =>
    if quadPos = 0 then some acc.reverse else none
  | c :: rest, quadPos, leftchar, pads, acc =>
    if c = 61 then
      if 2 ≤ quadPos ∧ 4 ≤ quadPos + (pads + 1) then some acc.reverse
      else if 2 ≤ quadPos then a2bLoop rest quadPos leftchar (pads + 1) acc
      else a2bLoop rest quadPos leftchar pads acc
    else
      match b64Char c with
      | none => a2bLoop rest quadPos leftchar pads acc
      | some v =>
        match quadPos with
        | 0 => a2bLoop rest 1 v 0 acc
        | 1 => a2bLoop rest 2 (v % 16) 0 ((leftchar * 4 + v / 16) :: acc)
        | 2 => a2bLoop rest 3 (v % 4) 0 ((leftchar * 16 + v / 4) :: acc)
        | _ => a2bLoop rest 0 0 0 ((leftchar * 64 + v) :: acc)

/-- Python `base64.b64decode` applied to a `str`: the string is first encoded
as ASCII (a code point ≥ 128 raises, `none`), then fed to `a2b_base64`. -/
def b64decodeStr (s : List Nat) : Option (List Nat) :=
  if s.all (fun c => c < 128) then a2bLoop s 0 0 0 [] else none

/-- `decoder.py` `decode_base64` (lines 31–61) on a `str`: strip surrounding
white space, `base64.b64decode`, then decode the bytes as UTF-8 with
`errors='ignore'`; any exception yields `None`. -/
def decode_base64 (s : List Nat) : Option (List Nat) :=
  (b64decodeStr (pyStrip s)).map utf8DecodeIgnore

/-- Python `str.lower` on one code point, for the ASCII letters that layer
names are made of. -/
def pyLowerChar (c : Nat) : Nat := if 65 ≤ c ∧ c ≤ 90 then c + 32 else c

/-- `decoder.py` `decode_multi_layer` (lines 90–130): apply each recognised
layer in order to the running value, aborting with `None` the moment a
recognised layer's decode fails; an unknown layer name only prints a warning
and leaves the value unchanged. -/
def decode_multi_layer (data : List Nat) : List (List Nat) → Option (List Nat)
  | [] => some data
  | layer :: rest =>
    if layer.map pyLowerChar = pyStr "base64" then
      match decode_base64 data with
      | none => none
      | some r => decode_multi_layer r rest
    else if layer.map pyLowerChar = pyStr "rot13" then
      decode_multi_layer (decode_rot13 data) rest
    else decode_multi_layer data rest

/-- The character-set gate of `decoder.py` line 152–153: every character is a
base64 alphabet/padding character or white space. -/
def b64Gate (s : List Nat) : Bool :=
  s.all (fun c => (b64Char c).isSome || c = 61 || isSpaceCode c)

/-- `decoder.py` `auto_detect_and_decode` (lines 133–186).  The Python
`results` dict (insertion order: `base64`, `rot13`, `base64_then_rot13`,
`rot13_then_base64`) is modelled as an association list built in the same
order.  Each entry is guarded exactly as in the code: a *truthy* (non-empty,
non-`None`) decode result. -/
def auto_detect_and_decode (s : List Nat) : List (String × List Nat) :=
  let b64res : Option (List Nat) :=
    if b64Gate s then decode_base64 s else none
  let e1 : List (String × List Nat) :=
    match b64res with
    | some d => if d = [] then [] else [("base64", d)]
    | none => []
  let rot := decode_rot13 s
  let e2 : List (String × List Nat) :=
    if rot ≠ [] ∧ rot ≠ s then [("rot13", rot)] else []
  let e3 : List (String × List Nat) :=
    match b64res with
    | some d =>
      if d = [] then []
      else
        let br := decode_rot13 d
        if br = [] then [] else [("base64_then_rot13", br)]
    | none => []
  let e4 : List (String × List Nat) :=
    if rot = [] then []
    else
      match decode_base64 rot with
      | some rb => if rb = [] then [] else [("rot13_then_base64", rb)]
      | none => []
  e1 ++ e2 ++ e3 ++ e4

/-- Value of one 8-bit group, most-significant bit first (`int(byte, 2)` on a
slice of the `'0'`/`'1'` string built by the extractors). -/
def byteOfBits (bits : List Nat) : Nat := bits.foldl (fun acc b => acc * 2 + b) 0

/-- `lsb_extractor.py` line 112: printable ASCII or tab/LF/CR. -/
def isPrintableByte (v : Nat) : Bool :=
  (32 ≤ v && v ≤ 126) || v = 10 || v = 13 || v = 9

/-- The strict byte-conversion loop of `lsb_extractor.py`
`extract_lsb_from_channel` (lines 102–129): walk the bit string eight bits at
a time over the complete bytes (`range(0, len - 7, 8)`); every byte is
appended to `byte_data` first; a printable byte is added to `ascii_text`, a
null byte breaks the loop, any other byte sets the corruption flag.  Returns
`(byte_data, ascii_text, possibly_corrupted)`. -/
def extract_strict : List Nat → List Nat × List Nat × Bool
  | b0 :: b1 :: b2 :: b3 :: b4 :: b5 :: b6 :: b7 :: rest =>
    let v := byteOfBits [b0, b1, b2, b3, b4, b5, b6, b7]
    if isPrintableByte v then
      let r := extract_strict rest
      (v :: r.1, v :: r.2.1, r.2.2)
    else if v = 0 then ([v], [], false)
    else
      let r := extract_strict rest
      (v :: r.1, r.2.1, true)
  | _ => ([], [], false)

/-- All complete 8-bit groups of a bit string, in order (the bytes the strict
loop would visit if it never hit a null byte). -/
def fullBytes : List Nat → List Nat
  | b0 :: b1 :: b2 :: b3 :: b4 :: b5 :: b6 :: b7 :: rest =>
    byteOfBits [b0, b1, b2, b3, b4, b5, b6, b7] :: fullBytes rest
  | _ => []

/-- `fragment_assembler.py` `aes_decrypt` lines 75–83: the key-length
normalization.  `bytes.ljust` pads on the right with zero bytes up to the
target length and leaves longer inputs unchanged (so the `< 32` branch is a
no-op for keys of 24–31 bytes). -/
def normalize_key (key : List Nat) : List Nat :=
  if key.length < 16 then key ++ List.replicate (16 - key.length) 0
  else if key.length < 24 then key.take 16
  else if key.length < 32 then key ++ List.replicate (24 - key.length) 0
  else key.take 32

/-! ### SHA-256 (`hashlib.sha256`, used by `aes_decrypt` to derive the IV) -/

/-- Bisection step for the integer cube root. -/
def icbrtGo (n : Nat) : Nat → Nat → Nat → Nat
  | 0, lo, _ => lo
  | fuel + 1, lo, hi =>
    if hi ≤ lo + 1 then lo
    else
      let mid := (lo + hi) / 2
      if mid ^ 3 ≤ n then icbrtGo n fuel mid hi else icbrtGo n fuel lo mid

/-- Integer cube root (largest `x` with `x ^ 3 ≤ n`). -/
def icbrt (n : Nat) : Nat := icbrtGo n 200 0 (n + 1)

/-- The first 64 prime numbers. -/
def first64Primes : List Nat := ((List.range 312).filter Nat.Prime).take 64

/-- Round constants of SHA-256 (FIPS 180-4): the first 32 bits of the
fractional parts of the cube roots of the first 64 primes. -/
def sha256K : List Nat :=
  first64Primes.map (fun p => icbrt (p * 2 ^ 96) % 2 ^ 32)

/-- Initial hash values of SHA-256 (FIPS 180-4): the first 32 bits of the
fractional parts of the square roots of the first 8 primes. -/
def sha256H0 : List Nat :=
  (first64Primes.take 8).map (fun p => Nat.sqrt (p * 2 ^ 64) % 2 ^ 32)

/-- 32-bit right rotation. -/
def rotr32 (n x : Nat) : Nat := (x / 2 ^ n + x % 2 ^ n * 2 ^ (32 - n)) % 2 ^ 32

/-- SHA-256 small sigma 0. -/
def ssig0 (x : Nat) : Nat := rotr32 7 x ^^^ rotr32 18 x ^^^ x / 2 ^ 3

/-- SHA-256 small sigma 1. -/
def ssig1 (x : Nat) : Nat := rotr32 17 x ^^^ rotr32 19 x ^^^ x / 2 ^ 10

/-- SHA-256 message padding: append `0x80`, zeros, and the 64-bit big-endian
bit length, reaching a multiple of 64 bytes. -/
def sha256Pad (msg : List Nat) : List Nat :=
  let zeros := (119 - msg.length % 64) % 64
  msg ++ [0x80] ++ List.replicate zeros 0 ++
    (List.range 8).map (fun i => msg.length * 8 / 2 ^ (8 * (7 - i)) % 256)

/-- Big-endian 32-bit words of a 64-byte block. -/
def sha256Words (block : List Nat) : List Nat :=
  (List.range 16).map (fun i =>
    block.getD (4 * i) 0 * 2 ^ 24 + block.getD (4 * i + 1) 0 * 2 ^ 16 +
    block.getD (4 * i + 2) 0 * 2 ^ 8 + block.getD (4 * i + 3) 0)

/-- Extend the 16 block words to the 64-entry message schedule. -/
def sha256Schedule (w16 : List Nat) : List Nat :=
  (List.range 48).foldl
    (fun w _ =>
      let n := w.length
      w ++ [(w.getD (n - 16) 0 + ssig0 (w.getD (n - 15) 0) +
             w.getD (n - 7) 0 + ssig1 (w.getD (n - 2) 0)) % 2 ^ 32])
    w16

/-- One SHA-256 compression round. -/
def sha256Round (w : List Nat) (st : List Nat) (i : Nat) : List Nat :=
  let a := st.getD 0 0
  let b := st.getD 1 0
  let c := st.getD 2 0
  let d := st.getD 3 0
  let e := st.getD 4 0
  let f := st.getD 5 0
  let g := st.getD 6 0
  let h := st.getD 7 0
  let s1 := rotr32 6 e ^^^ rotr32 11 e ^^^ rotr32 25 e
  let ch := (e &&& f) ^^^ ((e ^^^ (2 ^ 32 - 1)) &&& g)
  let t1 := (h + s1 + ch + sha256K.getD i 0 + w.getD i 0) % 2 ^ 32
  let s0 := rotr32 2 a ^^^ rotr32 13 a ^^^ rotr32 22 a
  let maj := (a &&& b) ^^^ (a &&& c) ^^^ (b &&& c)
  let t2 := (s0 + maj) % 2 ^ 32
  [(t1 + t2) % 2 ^ 32, a, b, c, (d + t1) % 2 ^ 32, e, f, g]

/-- Compress one 64-byte block into the running hash state. -/
def sha256Block (hv : List Nat) (block : List Nat) : List Nat :=
  let w := sha256Schedule (sha256Words block)
  let st := (List.range 64).foldl (sha256Round w) hv
  (hv.zipWith (fun x y => (x + y) % 2 ^ 32) st)

/-- Split a padded message into 64-byte blocks. -/
def chunk64 : List Nat → List (List Nat)
  | [] => []
  | b :: l => (b :: l).take 64 :: chunk64 ((b :: l).drop 64)
termination_by l => l.length
decreasing_by simp [List.length_drop]; omega

/-- `hashlib.sha256(...).digest()`: the 32-byte SHA-256 digest. -/
def sha256 (msg : List Nat) : List Nat :=
  let hv := (chunk64 (sha256Pad msg)).foldl sha256Block sha256H0
  hv.flatMap (fun x => (List.range 4).map (fun i => x / 2 ^ (8 * (3 - i)) % 256))

/-! ### AES-CBC (the `cryptography` primitives called by `aes_decrypt`) -/

/-- Multiplication by `x` in GF(2^8) with the AES polynomial `0x11B`. -/
def xtime (a : Nat) : Nat :=
  if a * 2 < 256 then a * 2 else a * 2 ^^^ 0x11B

/-- GF(2^8) multiplication (Russian-peasant with `xtime`). -/
def gmul (a b : Nat) : Nat :=
  ((List.range 8).foldl
    (fun st _ =>
      let acc := st.1
      let aa := st.2.1
      let bb := st.2.2
      (if bb % 2 = 1 then acc ^^^ aa else acc, xtime aa, bb / 2))
    (0, a, b)).1

/-- GF(2^8) exponentiation. -/
def gpow (a : Nat) : Nat → Nat
  | 0 => 1
  | n + 1 => gmul a (gpow a n)

/-- Multiplicative inverse in GF(2^8) (`a ^ 254`), with `0 ↦ 0`. -/
def ginv (a : Nat) : Nat := if a = 0 then 0 else gpow a 254

/-- 8-bit left rotation. -/
def rotl8 (n x : Nat) : Nat := (x * 2 ^ n) % 256 + x / 2 ^ (8 - n)

/-- The AES S-box: multiplicative inverse followed by the affine transform. -/
def sbox (c : Nat) : Nat :=
  let b := ginv c
  b ^^^ rotl8 1 b ^^^ rotl8 2 b ^^^ rotl8 3 b ^^^ rotl8 4 b ^^^ 0x63

/-- The inverse AES S-box. -/
def invSbox (y : Nat) : Nat :=
  (((List.range 256).filter (fun x => sbox x = y)).headD 0)

/-- AES round constants. -/
def rcon : Nat → Nat
  | 0 => 1
  | n + 1 => xtime (rcon n)

/-- Byte-wise xor of two equal-length byte lists. -/
def xorBytes (a b : List Nat) : List Nat := a.zipWith (fun x y => x ^^^ y) b

/-- AES key expansion (FIPS 197): the `4 * (Nr + 1)` four-byte words derived
from a 16/24/32-byte key. -/
def expandKey (key : List Nat) : List (List Nat) :=
  let nk := key.length / 4
  let nr := nk + 6
  let w0 := (List.range nk).map (fun i => (key.drop (4 * i)).take 4)
  (List.range (4 * (nr + 1) - nk)).foldl
    (fun w _ =>
      let i := w.length
      let temp := w.getD (i - 1) []
      let temp :=
        if i % nk = 0 then
          xorBytes (((temp.drop 1 ++ temp.take 1)).map sbox) [rcon (i / nk - 1), 0, 0, 0]
        else if 6 < nk ∧ i % nk = 4 then temp.map sbox
        else temp
      w ++ [xorBytes (w.getD (i - nk) []) temp])
    w0

/-- The flat 16-byte round key for round `r` (four consecutive expansion
words; byte order matches the AES state's column-major layout). -/
def roundKey (w : List (List Nat)) (r : Nat) : List Nat :=
  ((w.drop (4 * r)).take 4).flatten

/-- AES InvShiftRows on the flat 16-byte state (`state[r + 4c]` holds row `r`,
column `c`): row `r` is rotated right by `r`. -/
def invShiftRows (st : List Nat) : List Nat :=
  (List.range 16).map (fun i => st.getD (i % 4 + 4 * ((i / 4 + 4 - i % 4) % 4)) 0)

/-- AES InvMixColumns on one 4-byte column. -/
def invMixColumn (s0 s1 s2 s3 : Nat) : List Nat :=
  [gmul 14 s0 ^^^ gmul 11 s1 ^^^ gmul 13 s2 ^^^ gmul 9 s3,
   gmul 9 s0 ^^^ gmul 14 s1 ^^^ gmul 11 s2 ^^^ gmul 13 s3,
   gmul 13 s0 ^^^ gmul 9 s1 ^^^ gmul 14 s2 ^^^ gmul 11 s3,
   gmul 11 s0 ^^^ gmul 13 s1 ^^^ gmul 9 s2 ^^^ gmul 14 s3]

/-- AES InvMixColumns on the flat state. -/
def invMixColumns (st : List Nat) : List Nat :=
  (List.range 4).flatMap (fun c =>
    invMixColumn (st.getD (4 * c) 0) (st.getD (4 * c + 1) 0)
      (st.getD (4 * c + 2) 0) (st.getD (4 * c + 3) 0))

/-- AES block decryption (FIPS 197 InvCipher). -/
def aesDecryptBlock (key block : List Nat) : List Nat :=
  let nr := key.length / 4 + 6
  let w := expandKey key
  let st := xorBytes block (roundKey w nr)
  let st :=
    (List.range (nr - 1)).foldl
      (fun st i =>
        let r := nr - 1 - i
        invMixColumns (xorBytes ((invShiftRows st).map invSbox) (roundKey w r)))
      st
  xorBytes ((invShiftRows st).map invSbox) (roundKey w 0)

/-- Split a byte list into 16-byte blocks. -/
def chunk16 : List Nat → List (List Nat)
  | [] => []
  | b :: l => (b :: l).take 16 :: chunk16 ((b :: l).drop 16)
termination_by l => l.length
decreasing_by simp [List.length_drop]; omega

/-- CBC-mode decryption: each plaintext block is the block decryption of the
ciphertext block xored with the previous ciphertext block (IV first). -/
def cbcDecryptBlocks (key : List Nat) : List Nat → List (List Nat) → List (List Nat)
  | _, [] => []
  | prev, c :: cs => xorBytes (aesDecryptBlock key c) prev :: cbcDecryptBlocks key c cs

/-- AES-CBC decryption of a full ciphertext. -/
def cbcDecrypt (key iv data : List Nat) : List Nat :=
  (cbcDecryptBlocks key iv (chunk16 data)).flatten

/-- `cryptography` PKCS7(128) unpadding: the last byte gives the pad length
(1–16); all pad bytes must match; failure is `none` (a raised `ValueError`). -/
def pkcs7Unpad (p : List Nat) : Option (List Nat) :=
  match p.getLast? with
  | none => none
  | some n =>
    if 1 ≤ n ∧ n ≤ 16 ∧ n ≤ p.length ∧ (p.drop (p.length - n)).all (fun b => b = n) then
      some (p.take (p.length - n))
    else none

/-- `fragment_assembler.py` `aes_decrypt` (lines 60–106) on byte data and a
byte key (a `str` key is UTF-8 encoded by line 72–73).  `none` models an
uncaught exception: the `algorithms.AES` constructor rejects a normalized key
whose length is not 16/24/32 (which happens for 25–31 byte inputs, where the
`ljust(24)` branch is a no-op), `modes.CBC` rejects an IV that is not 16
bytes, and `decryptor.update/finalize` reject ciphertext that is not a
multiple of the block size.  A PKCS7 unpadding failure is caught by the
function itself, which then returns the padded plaintext unchanged. -/
def aes_decrypt (data key : List Nat) (iv : Option (List Nat)) : Option (List Nat) :=
  let k := normalize_key key
  if ¬(k.length = 16 ∨ k.length = 24 ∨ k.length = 32) then none
  else
    let ivv := match iv with
      | some v => v
      | none => (sha256 k).take 16
    if ¬ivv.length = 16 then none
    else if ¬data.length % 16 = 0 then none
    else
      let p := cbcDecrypt k ivv data
      match pkcs7Unpad p with
      | some u => some u
      | none => some p

/-- A Python value that is either a `str` or a `bytes`. -/
inductive PyBytesOrStr where
  | str (s : List Nat)
  | bytes (b : List Nat)

/-- `fragment_assembler.py` lines 167–175: a `str` input is first attempted as
base64 (without stripping); on failure it is UTF-8 encoded instead.  `bytes`
input passes through. -/
def toEncryptedBytes : PyBytesOrStr → List Nat
  | .str s =>
    match b64decodeStr s with
    | some b => b
    | none => utf8Encode s
  | .bytes b => b

/-- Python `str.isalpha` on one code point, for the ASCII range (the
pipeline's decrypted texts; non-ASCII alphabetics live in the Unicode
database, an external collaborator). -/
def pyIsAlpha (c : Nat) : Bool := (65 ≤ c && c ≤ 90) || (97 ≤ c && c ≤ 122)

/-- The XOR candidate computed by `decrypt_final` (lines 177–186): the XOR
decryption decoded as UTF-8 with `errors='ignore'`; an exception (empty key)
leaves the `results` dict without an `'xor'` entry. -/
def decryptFinalXor (eb key : List Nat) : Option (List Nat) :=
  (xor_decrypt eb key).map utf8DecodeIgnore

/-- The AES candidate computed by `decrypt_final` (lines 188–197); an
exception inside `aes_decrypt` leaves the `results` dict without an `'aes'`
entry. -/
def decryptFinalAes (eb key : List Nat) : Option (List Nat) :=
  (aes_decrypt eb key none).map utf8DecodeIgnore

/-- `fragment_assembler.py` `decrypt_final` (lines 147–210) with a byte key
(a `str` key is encoded identically by both callees).  The `results` dict has
at most the keys `'xor'` and `'aes'`, inserted in that order; under
`'auto'` the code returns the first value that is truthy and contains an
alphabetic character, else the first value present, else `None`; under any
other method it returns `results.get(method)`. -/
def decrypt_final (data : PyBytesOrStr) (key : List Nat) (method : String) :
    Option (List Nat) :=
  let eb := toEncryptedBytes data
  let xorR : Option (List Nat) :=
    if method = "xor" ∨ method = "auto" then decryptFinalXor eb key else none
  let aesR : Option (List Nat) :=
    if method = "aes" ∨ method = "auto" then decryptFinalAes eb key else none
  if method = "auto" then
    match xorR, aesR with
    | some x, some a =>
      if x ≠ [] ∧ x.any pyIsAlpha then some x
      else if a ≠ [] ∧ a.any pyIsAlpha then some a
      else some x
    | some x, none => some x
    | none, some a => some a
    | none, none => none
  else if method = "xor" then xorR
  else if method = "aes" then aesR
  else none

/-! ### Spiral traversal (`spiral_reader.py` `generate_spiral_coordinates`) -/

/-- Bounds check of `spiral_reader.py` lines 58/70/84/96:
`0 <= x < width and 0 <= y < height`. -/
def inBounds (w h : Nat) (p : Int × Int) : Bool :=
  0 ≤ p.1 && p.1 < (w : Int) && 0 ≤ p.2 && p.2 < (h : Int)

/-- One inner `for _ in range(cnt)` leg of the spiral: move by `(dx, dy)` each
iteration, append the position when it is in bounds, and break once the
accumulated list reaches `w * h` entries.  Returns the final position and the
accumulated list. -/
def runLeg (w h : Nat) (dx dy : Int) : Nat → Int → Int → List (Int × Int) →
    Int × Int × List (Int × Int)
  | 0, x, y, acc => (x, y, acc)
  | cnt + 1, x, y, acc =>
    let x' := x + dx
    let y' := y + dy
    let acc' := if inBounds w h (x', y') then acc ++ [(x', y')] else acc
    if w * h ≤ acc'.length then (x', y', acc')
    else runLeg w h dx dy cnt x' y' acc'

/-- The `while len(coordinates) < width * height` loop of
`generate_spiral_coordinates` (lines 52–104): four legs per iteration
(lengths `step`, `step`, `step + 1`, `step + 1`), each followed by the
fullness check, with the step counter advancing by two per iteration.  The
fuel argument bounds the number of loop iterations; `spiralFuel` below is
proven sufficient. -/
def spiralWhile (w h : Nat) (cw : Bool) : Nat → Nat → Int → Int →
    List (Int × Int) → List (Int × Int)
  | 0, _, _, _, acc => acc
  | fuel + 1, step, x, y, acc =>
    if acc.length < w * h then
      let dx1 : Int := if cw then 1 else -1
      let r1 := runLeg w h dx1 0 step x y acc
      if w * h ≤ r1.2.2.length then r1.2.2
      else
        let r2 := runLeg w h 0 dx1 step r1.1 r1.2.1 r1.2.2
        if w * h ≤ r2.2.2.length then r2.2.2
        else
          let r3 := runLeg w h (-dx1) 0 (step + 1) r2.1 r2.2.1 r2.2.2
          if w * h ≤ r3.2.2.length then r3.2.2
          else
            let r4 := runLeg w h 0 (-dx1) (step + 1) r3.1 r3.2.1 r3.2.2
            if w * h ≤ r4.2.2.length then r4.2.2
            else spiralWhile w h cw fuel (step + 2) r4.1 r4.2.1 r4.2.2
    else acc

/-- Loop-iteration bound used by the embedding (each iteration is one spiral
ring; `w + h` rings are proven to cover the whole image). -/
def spiralFuel (w h : Nat) : Nat := w + h

/-- `spiral_reader.py` `generate_spiral_coordinates` (lines 31–106): start at
the centre `(width // 2, height // 2)`, then spiral outward until `w * h`
in-bounds coordinates have been collected. -/
def generate_spiral_coordinates (w h : Nat) (cw : Bool) : List (Int × Int) :=
  let cx : Int := ((w / 2 : Nat) : Int)
  let cy : Int := ((h / 2 : Nat) : Int)
  spiralWhile w h cw (spiralFuel w h) 1 cx cy [(cx, cy)]

/-- Spec-side definition (section 4.7, `auto`): return the first candidate in
the fixed priority order (XOR, then block cipher) whose text contains an
alphabetic character; if neither qualifies, whichever result exists (XOR
first); if none, failure. -/
def autoSelectSpec (x a : Option (List Nat)) : Option (List Nat) :=
  match x, a with
  | some xv, some av =>
    if xv.any pyIsAlpha then some xv
    else if av.any pyIsAlpha then some av
    else some xv
  | some xv, none => some xv
  | none, some av => some av
  | none, none => none

/-- The positions visited by an unbounded, unfiltered leg of `cnt` unit moves
by `(dx, dy)` from `(x, y)` (excluding the start). -/
def legPts (dx dy : Int) : Nat → Int → Int → List (Int × Int)
  | 0, _, _ => []
  | cnt + 1, x, y => (x + dx, y + dy) :: legPts dx dy cnt (x + dx) (y + dy)

/-- The idealized spiral: the full (unfiltered) position sequence of `fuel`
loop iterations of `spiralWhile`, ignoring bounds and the fullness check. -/
def idealIter (cw : Bool) : Nat → Nat → Int → Int → List (Int × Int)
  | 0, _, _, _ => []
  | fuel + 1, step, x, y =>
    let dx1 : Int := if cw then 1 else -1
    legPts dx1 0 step x y ++
    legPts 0 dx1 step (x + dx1 * step) y ++
    legPts (-dx1) 0 (step + 1) (x + dx1 * step) (y + dx1 * step) ++
    legPts 0 (-dx1) (step + 1) (x - dx1) (y + dx1 * step) ++
    idealIter cw fuel (step + 2) (x - dx1) (y - dx1)

/-! ## Theorems -/

/-! ### C8 — ROT-13 -/

theorem rot13Char_involutive (c : Nat) : rot13Char (rot13Char c) = c := by
  unfold rot13Char
  split_ifs <;> omega

/-- C8: `decode_rot13` is an involution on alphabetic-only strings, rotates
each alphabetic character by 13 positions case-preserving (uppercase stays
uppercase, lowercase stays lowercase, and the letter index moves by 13
mod 26), and is total (never fails) on text input. -/
theorem decode_rot13_involution (s : List Nat)
    (_halpha : ∀ c ∈ s, pyIsAlpha c = true) :
    decode_rot13 (decode_rot13 s) = s ∧
    ∀ c ∈ s,
      ((65 ≤ c ∧ c ≤ 90) →
        65 ≤ rot13Char c ∧ rot13Char c ≤ 90 ∧ (rot13Char c + 26 - c) % 26 = 13) ∧
      ((97 ≤ c ∧ c ≤ 122) →
        97 ≤ rot13Char c ∧ rot13Char c ≤ 122 ∧ (rot13Char c + 26 - c) % 26 = 13) := by
  constructor
  · unfold decode_rot13
    rw [List.map_map]
    have : rot13Char ∘ rot13Char = id := funext rot13Char_involutive
    rw [this, List.map_id]
  · intro c _
    constructor
    · intro hc
      unfold rot13Char
      split_ifs <;> omega
    · intro hc
      unfold rot13Char
      split_ifs <;> omega

theorem decode_rot13_involution_witness :
    decode_rot13 (decode_rot13 (pyStr "Uryyb")) = pyStr "Uryyb" :=
  (decode_rot13_involution (pyStr "Uryyb") (by decide)).1

/-! ### C7 / C10 — XOR decryption -/

theorem keyRepeated_length (data key : List Nat) (h : key ≠ []) :
    (((List.replicate (data.length / key.length + 1) key).flatten).take
      data.length).length = data.length := by
  have hk : 0 < key.length := List.length_pos.mpr h
  have hflat : ∀ n : Nat, ((List.replicate n key).flatten).length = n * key.length := by
    intro n
    induction n with
    | zero => simp
    | succ m ih => simp [List.replicate_succ, ih]; ring
  rw [List.length_take, hflat]
  have hlt : data.length < (data.length / key.length + 1) * key.length := by
    have h1 := Nat.div_add_mod data.length key.length
    have h2 := Nat.mod_lt data.length hk
    nlinarith [Nat.div_add_mod data.length key.length]
  omega

theorem zipWith_xor_cancel (a : List Nat) :
    ∀ b : List Nat, b.length = a.length →
      (a.zipWith (fun d k => d ^^^ k) b).zipWith (fun d k => d ^^^ k) b = a := by
  induction a with
  | nil => intro b _; simp
  | cons x xs ih =>
    intro b hb
    cases b with
    | nil => simp at hb
    | cons y ys =>
      simp only [List.zipWith_cons_cons, List.cons.injEq]
      refine ⟨?_, ih ys (by simpa using hb)⟩
      simp [Nat.xor_assoc]

/-- C7: XOR decryption is self-inverse — for every data and non-empty key,
decrypting twice with the same key returns the original data (in particular
for the `FLAG{test}` / key `"k"` scenario instantiated in the witness). -/
theorem xor_decrypt_self_inverse (data key : List Nat) (h : key ≠ []) :
    ∃ c, xor_decrypt data key = some c ∧ xor_decrypt c key = some data := by
  have hk : ¬key.length = 0 := fun h0 => h (List.length_eq_zero.mp h0)
  have hkr := keyRepeated_length data key h
  refine ⟨data.zipWith (fun d k => d ^^^ k)
      (((List.replicate (data.length / key.length + 1) key).flatten).take
        data.length), ?_, ?_⟩
  · simp only [xor_decrypt, if_neg hk]
  · have hlen : (data.zipWith (fun d k => d ^^^ k)
        (((List.replicate (data.length / key.length + 1) key).flatten).take
          data.length)).length = data.length := by
      rw [List.length_zipWith, hkr]
      omega
    simp only [xor_decrypt, if_neg hk, hlen, Option.some.injEq]
    exact zipWith_xor_cancel data _ hkr

theorem xor_decrypt_self_inverse_witness :
    ∃ c, xor_decrypt (utf8Encode (pyStr "FLAG{test}")) (utf8Encode (pyStr "k")) = some c ∧
      xor_decrypt c (utf8Encode (pyStr "k")) = some (utf8Encode (pyStr "FLAG{test}")) :=
  xor_decrypt_self_inverse (utf8Encode (pyStr "FLAG{test}")) (utf8Encode (pyStr "k"))
    (by decide)

/-- C10: with an empty key, `xor_decrypt` raises an uncaught
`ZeroDivisionError` (modelled as `none`); with any non-empty key it is total
and returns output of the same length as the data. -/
theorem xor_decrypt_empty_key (data key : List Nat) :
    (key = [] → xor_decrypt data key = none) ∧
    (key ≠ [] → ∃ r, xor_decrypt data key = some r ∧ r.length = data.length) := by
  constructor
  · intro hk
    simp [xor_decrypt, hk]
  · intro hk
    have h0 : ¬key.length = 0 := fun h0 => hk (List.length_eq_zero.mp h0)
    refine ⟨data.zipWith (fun d k => d ^^^ k)
        (((List.replicate (data.length / key.length + 1) key).flatten).take
          data.length), ?_, ?_⟩
    · simp only [xor_decrypt, if_neg h0]
    · rw [List.length_zipWith, keyRepeated_length data key hk]
      omega

theorem xor_decrypt_empty_key_witness :
    xor_decrypt [1, 2, 3] [] = none ∧
      ∃ r, xor_decrypt [1, 2, 3] [107] = some r ∧ r.length = 3 :=
  ⟨(xor_decrypt_empty_key [1, 2, 3] []).1 rfl,
    (xor_decrypt_empty_key [1, 2, 3] [107]).2 (by decide)⟩

/-! ### C5 — automatic decryption method selection -/

/-- C5: `decrypt_final` with method `auto` computes both the XOR and the
block-cipher candidates and returns exactly what the spec's selection rule
prescribes: the first candidate in the fixed priority order (XOR, then AES)
whose text contains an alphabetic character, else whichever candidate exists
(XOR first), else `None`. -/
theorem decrypt_final_auto_follows_spec (data : PyBytesOrStr) (key : List Nat) :
    decrypt_final data key "auto" =
      autoSelectSpec (decryptFinalXor (toEncryptedBytes data) key)
        (decryptFinalAes (toEncryptedBytes data) key) := by
  simp only [decrypt_final, or_true, if_true]
  cases hX : decryptFinalXor (toEncryptedBytes data) key with
  | none =>
    cases hA : decryptFinalAes (toEncryptedBytes data) key with
    | none => rfl
    | some a => rfl
  | some x =>
    cases hA : decryptFinalAes (toEncryptedBytes data) key with
    | none => rfl
    | some a =>
      simp only [autoSelectSpec]
      by_cases hxa : x.any pyIsAlpha
      · have hxe : x ≠ [] := by
          intro h
          subst h
          simp at hxa
        rw [if_pos ⟨hxe, hxa⟩, if_pos hxa]
      · rw [if_neg (fun h => hxa h.2), if_neg hxa]
        by_cases haa : a.any pyIsAlpha
        · have hae : a ≠ [] := by
            intro h
            subst h
            simp at haa
          rw [if_pos ⟨hae, haa⟩, if_pos haa]
        · rw [if_neg (fun h => haa h.2), if_neg haa]

/-! ### C1 — spiral traversal -/

theorem runLeg_no_stop (w h : Nat) (dx dy : Int) :
    ∀ (n : Nat) (x y : Int) (acc : List (Int × Int)),
      (acc ++ (legPts dx dy n x y).filter (inBounds w h)).length < w * h →
      runLeg w h dx dy n x y acc =
        (x + dx * n, y + dy * n,
          acc ++ (legPts dx dy n x y).filter (inBounds w h)) := by
  intro n
  induction n with
  | zero =>
    intro x y acc hlen
    simp [runLeg, legPts]
  | succ m ih =>
    intro x y acc hlen
    have hsplit : acc ++ (legPts dx dy (m + 1) x y).filter (inBounds w h) =
        (if inBounds w h (x + dx, y + dy) then acc ++ [(x + dx, y + dy)] else acc) ++
          (legPts dx dy m (x + dx) (y + dy)).filter (inBounds w h) := by
      by_cases hin : inBounds w h (x + dx, y + dy)
      · simp [legPts, List.filter_cons, hin]
      · simp [legPts, List.filter_cons, hin]
    rw [hsplit] at hlen ⊢
    have hacc' : (if inBounds w h (x + dx, y + dy) then
        acc ++ [(x + dx, y + dy)] else acc).length < w * h := by
      have := List.length_append (if inBounds w h (x + dx, y + dy) then
        acc ++ [(x + dx, y + dy)] else acc)
        ((legPts dx dy m (x + dx) (y + dy)).filter (inBounds w h))
      omega
    simp only [runLeg]
    rw [if_neg (by omega)]
    rw [ih (x + dx) (y + dy) _ hlen]
    simp only [Prod.mk.injEq]
    refine ⟨by push_cast; ring, by push_cast; ring, trivial⟩

theorem runLeg_stop (w h : Nat) (dx dy : Int) :
    ∀ (n : Nat) (x y : Int) (acc : List (Int × Int)),
      acc.length < w * h →
      w * h ≤ (acc ++ (legPts dx dy n x y).filter (inBounds w h)).length →
      (runLeg w h dx dy n x y acc).2.2 =
          (acc ++ (legPts dx dy n x y).filter (inBounds w h)).take (w * h) ∧
        (runLeg w h dx dy n x y acc).2.2.length = w * h := by
  intro n
  induction n with
  | zero =>
    intro x y acc hacc hfull
    simp only [legPts, List.filter_nil, List.append_nil] at hfull
    omega
  | succ m ih =>
    intro x y acc hacc hfull
    have hsplit : acc ++ (legPts dx dy (m + 1) x y).filter (inBounds w h) =
        (if inBounds w h (x + dx, y + dy) then acc ++ [(x + dx, y + dy)] else acc) ++
          (legPts dx dy m (x + dx) (y + dy)).filter (inBounds w h) := by
      by_cases hin : inBounds w h (x + dx, y + dy)
      · simp [legPts, List.filter_cons, hin]
      · simp [legPts, List.filter_cons, hin]
    rw [hsplit] at hfull ⊢
    set acc' := if inBounds w h (x + dx, y + dy) then
      acc ++ [(x + dx, y + dy)] else acc with haccdef
    have hle : acc'.length ≤ acc.length + 1 := by
      rw [haccdef]
      split_ifs <;> simp
    simp only [runLeg]
    by_cases hstop : w * h ≤ acc'.length
    · rw [if_pos hstop]
      have heq : acc'.length = w * h := by omega
      refine ⟨?_, heq⟩
      rw [List.take_append_of_le_length (by omega), ← heq, List.take_length]
    · rw [if_neg hstop]
      exact ih (x + dx) (y + dy) acc' (by omega) hfull

theorem spiralWhile_take (w h : Nat) (cw : Bool) :
    ∀ (fuel step : Nat) (x y : Int) (acc : List (Int × Int)),
      acc.length ≤ w * h →
      w * h ≤ (acc ++ (idealIter cw fuel step x y).filter (inBounds w h)).length →
      spiralWhile w h cw fuel step x y acc =
        (acc ++ (idealIter cw fuel step x y).filter (inBounds w h)).take (w * h) := by
  intro fuel
  induction fuel with
  | zero =>
    intro step x y acc hacc hfull
    simp only [idealIter, List.filter_nil, List.append_nil] at hfull ⊢
    have : acc.length = w * h := le_antisymm hacc hfull
    simp only [spiralWhile, ← this, List.take_length]
  | succ f ih =>
    intro step x y acc hacc hfull
    set dx1 : Int := if cw then 1 else -1 with hdx1
    set l1 := legPts dx1 0 step x y with hl1
    set l2 := legPts 0 dx1 step (x + dx1 * step) y with hl2
    set l3 := legPts (-dx1) 0 (step + 1) (x + dx1 * step) (y + dx1 * step) with hl3
    set l4 := legPts 0 (-dx1) (step + 1) (x - dx1) (y + dx1 * step) with hl4
    set tl := idealIter cw f (step + 2) (x - dx1) (y - dx1) with htl
    have hideal : idealIter cw (f + 1) step x y = l1 ++ l2 ++ l3 ++ l4 ++ tl := by
      simp only [idealIter, hl1, hl2, hl3, hl4, htl, hdx1]
    rw [hideal] at hfull ⊢
    set F := List.filter (inBounds w h) with hF
    have hsplit : acc ++ F (l1 ++ l2 ++ l3 ++ l4 ++ tl) =
        ((((acc ++ F l1) ++ F l2) ++ F l3) ++ F l4) ++ F tl := by
      simp [hF, List.filter_append, List.append_assoc]
    rw [hsplit] at hfull ⊢
    have e1 : (acc ++ F l1).length ≤ ((acc ++ F l1) ++ F l2).length := by
      rw [List.length_append ((acc ++ F l1)) (F l2)]
      omega
    have e2 : ((acc ++ F l1) ++ F l2).length ≤
        (((acc ++ F l1) ++ F l2) ++ F l3).length := by
      rw [List.length_append (((acc ++ F l1) ++ F l2)) (F l3)]
      omega
    have e3 : (((acc ++ F l1) ++ F l2) ++ F l3).length ≤
        ((((acc ++ F l1) ++ F l2) ++ F l3) ++ F l4).length := by
      rw [List.length_append ((((acc ++ F l1) ++ F l2) ++ F l3)) (F l4)]
      omega
    have e0 : acc.length ≤ (acc ++ F l1).length := by
      rw [List.length_append acc (F l1)]
      omega
    by_cases hacc0 : acc.length < w * h
    case neg =>
      have haccq : acc.length = w * h := by omega
      simp only [spiralWhile]
      rw [if_neg (by omega)]
      rw [List.take_append_of_le_length (by omega),
        List.take_append_of_le_length (by omega),
        List.take_append_of_le_length (by omega),
        List.take_append_of_le_length (by omega),
        List.take_append_of_le_length (by omega), ← haccq, List.take_length]
    case pos =>
    simp only [spiralWhile]
    rw [if_pos hacc0]
    by_cases h1 : w * h ≤ (acc ++ F l1).length
    · obtain ⟨hres, hlen⟩ := runLeg_stop w h dx1 0 step x y acc hacc0 h1
      have tpeel : (((((acc ++ F l1) ++ F l2) ++ F l3) ++ F l4) ++ F tl).take (w * h) =
          (acc ++ F l1).take (w * h) := by
        rw [List.take_append_of_le_length (by omega),
          List.take_append_of_le_length (by omega),
          List.take_append_of_le_length (by omega),
          List.take_append_of_le_length (by omega)]
      rw [if_pos (le_of_eq hlen.symm), hres, tpeel]
    · push_neg at h1
      rw [runLeg_no_stop w h dx1 0 step x y acc h1]
      simp only [zero_mul, mul_zero, add_zero]
      rw [← hF, ← hl1]
      rw [if_neg (by omega)]
      by_cases h2 : w * h ≤ ((acc ++ F l1) ++ F l2).length
      · obtain ⟨hres, hlen⟩ := runLeg_stop w h 0 dx1 step (x + dx1 * step) y
          (acc ++ F l1) h1 h2
        have tpeel : (((((acc ++ F l1) ++ F l2) ++ F l3) ++ F l4) ++ F tl).take (w * h) =
            ((acc ++ F l1) ++ F l2).take (w * h) := by
          rw [List.take_append_of_le_length (by omega),
            List.take_append_of_le_length (by omega),
            List.take_append_of_le_length (by omega)]
        rw [if_pos (le_of_eq hlen.symm), hres, tpeel]
      · push_neg at h2
        rw [runLeg_no_stop w h 0 dx1 step (x + dx1 * step) y (acc ++ F l1) h2]
        simp only [zero_mul, mul_zero, add_zero]
        rw [← hF, ← hl2]
        rw [if_neg (by omega)]
        by_cases h3 : w * h ≤ (((acc ++ F l1) ++ F l2) ++ F l3).length
        · obtain ⟨hres, hlen⟩ := runLeg_stop w h (-dx1) 0 (step + 1)
            (x + dx1 * step) (y + dx1 * step) ((acc ++ F l1) ++ F l2) h2 h3
          have tpeel : (((((acc ++ F l1) ++ F l2) ++ F l3) ++ F l4) ++ F tl).take (w * h) =
              (((acc ++ F l1) ++ F l2) ++ F l3).take (w * h) := by
            rw [List.take_append_of_le_length (by omega),
              List.take_append_of_le_length (by omega)]
          rw [if_pos (le_of_eq hlen.symm), hres, tpeel]
        · push_neg at h3
          rw [runLeg_no_stop w h (-dx1) 0 (step + 1) (x + dx1 * step)
            (y + dx1 * step) ((acc ++ F l1) ++ F l2) h3]
          simp only [zero_mul, mul_zero, add_zero]
          have hx3 : x + dx1 * step + -dx1 * ((step + 1 : Nat) : Int) = x - dx1 := by
            push_cast
            ring
          rw [hx3]
          rw [← hF, ← hl3]
          rw [if_neg (by omega)]
          by_cases h4 : w * h ≤ ((((acc ++ F l1) ++ F l2) ++ F l3) ++ F l4).length
          · obtain ⟨hres, hlen⟩ := runLeg_stop w h 0 (-dx1) (step + 1)
              (x - dx1) (y + dx1 * step) (((acc ++ F l1) ++ F l2) ++ F l3) h3 h4
            have tpeel : (((((acc ++ F l1) ++ F l2) ++ F l3) ++ F l4) ++ F tl).take (w * h) =
                ((((acc ++ F l1) ++ F l2) ++ F l3) ++ F l4).take (w * h) :=
              List.take_append_of_le_length (by omega)
            rw [if_pos (le_of_eq hlen.symm), hres, tpeel]
          · push_neg at h4
            rw [runLeg_no_stop w h 0 (-dx1) (step + 1) (x - dx1)
              (y + dx1 * step) (((acc ++ F l1) ++ F l2) ++ F l3) h4]
            simp only [zero_mul, mul_zero, add_zero]
            have hy4 : y + dx1 * step + -dx1 * ((step + 1 : Nat) : Int) = y - dx1 := by
              push_cast
              ring
            rw [hy4]
            rw [← hF, ← hl4]
            rw [if_neg (by omega)]
            exact ih (step + 2) (x - dx1) (y - dx1)
              ((((acc ++ F l1) ++ F l2) ++ F l3) ++ F l4) (by omega) hfull

theorem legPts_eq_map (dx dy : Int) :
    ∀ (n : Nat) (x y : Int),
      legPts dx dy n x y =
        (List.range n).map
          (fun i : Nat => (x + dx * ((i : Int) + 1), y + dy * ((i : Int) + 1))) := by
  intro n
  induction n with
  | zero => intro x y; simp [legPts]
  | succ m ih =>
    intro x y
    rw [List.range_succ_eq_map]
    simp only [legPts, List.map_cons, List.map_map, List.cons.injEq]
    refine ⟨by simp, ?_⟩
    rw [ih (x + dx) (y + dy)]
    apply List.map_congr_left
    intro i _
    simp only [Function.comp_apply, Prod.mk.injEq]
    constructor
    · push_cast
      ring
    · push_cast
      ring

theorem mem_legPts_iff (dx dy : Int) (n : Nat) (x y : Int) (p : Int × Int) :
    p ∈ legPts dx dy n x y ↔
      ∃ i : Nat, i < n ∧ p = (x + dx * ((i : Int) + 1), y + dy * ((i : Int) + 1)) := by
  rw [legPts_eq_map]
  simp only [List.mem_map, List.mem_range]
  constructor
  · rintro ⟨i, hi, rfl⟩
    exact ⟨i, hi, rfl⟩
  · rintro ⟨i, hi, rfl⟩
    exact ⟨i, hi, rfl⟩

theorem mem_legPts_px (n : Nat) (x y : Int) (p : Int × Int) :
    p ∈ legPts 1 0 n x y ↔ p.2 = y ∧ x + 1 ≤ p.1 ∧ p.1 ≤ x + n := by
  rw [mem_legPts_iff]
  constructor
  · rintro ⟨i, hi, rfl⟩
    simp
    omega
  · rintro ⟨h1, h2, h3⟩
    refine ⟨(p.1 - x - 1).toNat, by omega, ?_⟩
    obtain ⟨p1, p2⟩ := p
    simp only [Prod.mk.injEq, one_mul, zero_mul, add_zero] at *
    omega

theorem mem_legPts_mx (n : Nat) (x y : Int) (p : Int × Int) :
    p ∈ legPts (-1) 0 n x y ↔ p.2 = y ∧ x - n ≤ p.1 ∧ p.1 ≤ x - 1 := by
  rw [mem_legPts_iff]
  constructor
  · rintro ⟨i, hi, rfl⟩
    simp
    omega
  · rintro ⟨h1, h2, h3⟩
    refine ⟨(x - 1 - p.1).toNat, by omega, ?_⟩
    obtain ⟨p1, p2⟩ := p
    simp only [Prod.mk.injEq, neg_one_mul, zero_mul, add_zero] at *
    omega

theorem mem_legPts_py (n : Nat) (x y : Int) (p : Int × Int) :
    p ∈ legPts 0 1 n x y ↔ p.1 = x ∧ y + 1 ≤ p.2 ∧ p.2 ≤ y + n := by
  rw [mem_legPts_iff]
  constructor
  · rintro ⟨i, hi, rfl⟩
    simp
    omega
  · rintro ⟨h1, h2, h3⟩
    refine ⟨(p.2 - y - 1).toNat, by omega, ?_⟩
    obtain ⟨p1, p2⟩ := p
    simp only [Prod.mk.injEq, one_mul, zero_mul, add_zero] at *
    omega

theorem mem_legPts_my (n : Nat) (x y : Int) (p : Int × Int) :
    p ∈ legPts 0 (-1) n x y ↔ p.1 = x ∧ y - n ≤ p.2 ∧ p.2 ≤ y - 1 := by
  rw [mem_legPts_iff]
  constructor
  · rintro ⟨i, hi, rfl⟩
    simp
    omega
  · rintro ⟨h1, h2, h3⟩
    refine ⟨(y - 1 - p.2).toNat, by omega, ?_⟩
    obtain ⟨p1, p2⟩ := p
    simp only [Prod.mk.injEq, neg_one_mul, zero_mul, add_zero] at *
    omega

theorem legPts_nodup (dx dy : Int) (hd : dx ≠ 0 ∨ dy ≠ 0) (n : Nat) (x y : Int) :
    (legPts dx dy n x y).Nodup := by
  rw [legPts_eq_map]
  refine List.Nodup.map_on ?_ (List.nodup_range n)
  intro i _ j _ heq
  simp only [Prod.mk.injEq] at heq
  rcases hd with hd | hd
  · have := mul_left_cancel₀ hd (by linarith [heq.1] : dx * ((i : Int) + 1) = dx * ((j : Int) + 1))
    omega
  · have := mul_left_cancel₀ hd (by linarith [heq.2] : dy * ((i : Int) + 1) = dy * ((j : Int) + 1))
    omega

/-- Unfolding equation for one loop iteration of the idealized spiral. -/
theorem idealIter_succ (cw : Bool) (fuel step : Nat) (x y : Int) :
    idealIter cw (fuel + 1) step x y =
      legPts (if cw then 1 else -1) 0 step x y ++
      legPts 0 (if cw then 1 else -1) step (x + (if cw then 1 else -1) * step) y ++
      legPts (-(if cw then 1 else -1)) 0 (step + 1) (x + (if cw then 1 else -1) * step)
        (y + (if cw then 1 else -1) * step) ++
      legPts 0 (-(if cw then 1 else -1)) (step + 1) (x - (if cw then 1 else -1))
        (y + (if cw then 1 else -1) * step) ++
      idealIter cw fuel (step + 2) (x - (if cw then 1 else -1))
        (y - (if cw then 1 else -1)) := rfl

/-- Peeling one complete ring off the back of the idealized spiral. -/
theorem idealIter_snoc (cw : Bool) :
    ∀ (fuel step : Nat) (x y : Int),
      idealIter cw (fuel + 1) step x y =
        idealIter cw fuel step x y ++
          idealIter cw 1 (step + 2 * fuel)
            (x - (if cw then 1 else -1) * fuel) (y - (if cw then 1 else -1) * fuel) := by
  intro fuel
  induction fuel with
  | zero =>
    intro step x y
    simp [idealIter]
  | succ f ih =>
    intro step x y
    rw [idealIter_succ cw (f + 1) step x y, idealIter_succ cw f step x y,
      ih (step + 2) (x - (if cw then 1 else -1)) (y - (if cw then 1 else -1))]
    have hs : (step + 2) + 2 * f = step + 2 * (f + 1) := by omega
    have hx : (x - (if cw then 1 else -1)) - (if cw then 1 else -1) * (f : Int) =
        x - (if cw then 1 else -1) * ((f : Nat) + 1 : Nat) := by
      push_cast
      ring
    have hy : (y - (if cw then 1 else -1)) - (if cw then 1 else -1) * (f : Int) =
        y - (if cw then 1 else -1) * ((f : Nat) + 1 : Nat) := by
      push_cast
      ring
    rw [hs, hx, hy]
    simp [List.append_assoc]

/-- One clockwise ring written as its four explicit legs. -/
theorem ring_cw_eq (s : Nat) (u v : Int) :
    idealIter true 1 s u v =
      legPts 1 0 s u v ++ legPts 0 1 s (u + s) v ++
      legPts (-1) 0 (s + 1) (u + s) (v + s) ++
      legPts 0 (-1) (s + 1) (u - 1) (v + s) := by
  rw [idealIter_succ true 0 s u v]
  simp [idealIter]

/-- Membership in one clockwise ring, as interval constraints. -/
theorem mem_ring_cw (s : Nat) (u v : Int) (p : Int × Int) :
    p ∈ idealIter true 1 s u v ↔
      ((p.2 = v ∧ u + 1 ≤ p.1 ∧ p.1 ≤ u + s) ∨
       (p.1 = u + s ∧ v + 1 ≤ p.2 ∧ p.2 ≤ v + s) ∨
       (p.2 = v + s ∧ u - 1 ≤ p.1 ∧ p.1 ≤ u + s - 1) ∨
       (p.1 = u - 1 ∧ v - 1 ≤ p.2 ∧ p.2 ≤ v + s - 1)) := by
  rw [ring_cw_eq]
  simp only [List.mem_append, mem_legPts_px, mem_legPts_py, mem_legPts_mx,
    mem_legPts_my]
  push_cast
  omega

/-- One clockwise ring has no duplicate positions. -/
theorem nodup_ring_cw (s : Nat) (u v : Int) :
    (idealIter true 1 s u v).Nodup := by
  rw [ring_cw_eq]
  have hA := legPts_nodup 1 0 (Or.inl one_ne_zero) s u v
  have hB := legPts_nodup 0 1 (Or.inr one_ne_zero) s (u + s) v
  have hC := legPts_nodup (-1) 0 (Or.inl (by norm_num)) (s + 1) (u + s) (v + s)
  have hD := legPts_nodup 0 (-1) (Or.inr (by norm_num)) (s + 1) (u - 1) (v + s)
  have hAB : (legPts 1 0 s u v ++ legPts 0 1 s (u + s) v).Nodup := by
    rw [List.nodup_append]
    refine ⟨hA, hB, ?_⟩
    intro p hp1 hp2
    rw [mem_legPts_px] at hp1
    rw [mem_legPts_py] at hp2
    omega
  have hABC : ((legPts 1 0 s u v ++ legPts 0 1 s (u + s) v) ++
      legPts (-1) 0 (s + 1) (u + s) (v + s)).Nodup := by
    rw [List.nodup_append]
    refine ⟨hAB, hC, ?_⟩
    intro p hp1 hp2
    rw [List.mem_append] at hp1
    rw [mem_legPts_mx] at hp2
    push_cast at hp2
    rcases hp1 with hp1 | hp1
    · rw [mem_legPts_px] at hp1
      omega
    · rw [mem_legPts_py] at hp1
      omega
  rw [List.nodup_append]
  refine ⟨hABC, hD, ?_⟩
  intro p hp1 hp2
  rw [List.mem_append, List.mem_append] at hp1
  rw [mem_legPts_my] at hp2
  push_cast at hp2
  rcases hp1 with (hp1 | hp1) | hp1
  · rw [mem_legPts_px] at hp1
    omega
  · rw [mem_legPts_py] at hp1
    omega
  · rw [mem_legPts_mx] at hp1
    push_cast at hp1
    omega

/-- Invariant of the clockwise idealized spiral after `m` complete rings:
the visited positions (start included) are exactly the square of radius `m`
around the start minus the not-yet-filled top strip, with no duplicates. -/
theorem spiral_inv_cw (m : Nat) :
    ∀ a b : Int,
      ((a, b) :: idealIter true m 1 a b).Nodup ∧
      (∀ p : Int × Int, p ∈ (a, b) :: idealIter true m 1 a b ↔
        (a - m ≤ p.1 ∧ p.1 ≤ a + m ∧ b - m ≤ p.2 ∧ p.2 ≤ b + m ∧
          ¬(p.2 = b - m ∧ a - m + 1 ≤ p.1))) := by
  induction m with
  | zero =>
    intro a b
    constructor
    · simp [idealIter]
    · intro p
      simp only [idealIter, List.mem_cons, List.not_mem_nil, or_false]
      push_cast
      constructor
      · rintro rfl
        simp
      · intro hp
        have h1 : p.1 = a := by omega
        have h2 : p.2 = b := by omega
        obtain ⟨p1, p2⟩ := p
        simp only at h1 h2
        rw [h1, h2]
  | succ m ih =>
    intro a b
    obtain ⟨ihN, ihM⟩ := ih a b
    have hsnoc := idealIter_snoc true m 1 a b
    simp only [if_true, one_mul] at hsnoc
    constructor
    · rw [hsnoc, List.nodup_cons]
      constructor
      · rw [List.mem_append]
        rintro (h | h)
        · exact (List.nodup_cons.mp ihN).1 h
        · rw [mem_ring_cw] at h
          push_cast at h
          omega
      · rw [List.nodup_append]
        refine ⟨(List.nodup_cons.mp ihN).2, nodup_ring_cw _ _ _, ?_⟩
        intro p hpOld hpR
        have hpF := (ihM p).mp (List.mem_cons_of_mem _ hpOld)
        rw [mem_ring_cw] at hpR
        push_cast at hpF hpR
        omega
    · intro p
      rw [hsnoc]
      simp only [List.mem_cons, List.mem_append]
      have hold := ihM p
      rw [List.mem_cons] at hold
      rw [← or_assoc, hold, mem_ring_cw]
      push_cast
      omega

/-- One counterclockwise ring written as its four explicit legs. -/
theorem ring_ccw_eq (s : Nat) (u v : Int) :
    idealIter false 1 s u v =
      legPts (-1) 0 s u v ++ legPts 0 (-1) s (u - s) v ++
      legPts 1 0 (s + 1) (u - s) (v - s) ++
      legPts 0 1 (s + 1) (u + 1) (v - s) := by
  rw [idealIter_succ false 0 s u v]
  norm_num [idealIter, sub_eq_add_neg]

/-- Membership in one counterclockwise ring, as interval constraints. -/
theorem mem_ring_ccw (s : Nat) (u v : Int) (p : Int × Int) :
    p ∈ idealIter false 1 s u v ↔
      ((p.2 = v ∧ u - s ≤ p.1 ∧ p.1 ≤ u - 1) ∨
       (p.1 = u - s ∧ v - s ≤ p.2 ∧ p.2 ≤ v - 1) ∨
       (p.2 = v - s ∧ u - s + 1 ≤ p.1 ∧ p.1 ≤ u + 1) ∨
       (p.1 = u + 1 ∧ v - s + 1 ≤ p.2 ∧ p.2 ≤ v + 1)) := by
  rw [ring_ccw_eq]
  simp only [List.mem_append, mem_legPts_px, mem_legPts_py, mem_legPts_mx,
    mem_legPts_my]
  push_cast
  omega

/-- One counterclockwise ring has no duplicate positions. -/
theorem nodup_ring_ccw (s : Nat) (u v : Int) :
    (idealIter false 1 s u v).Nodup := by
  rw [ring_ccw_eq]
  have hA := legPts_nodup (-1) 0 (Or.inl (by norm_num)) s u v
  have hB := legPts_nodup 0 (-1) (Or.inr (by norm_num)) s (u - s) v
  have hC := legPts_nodup 1 0 (Or.inl one_ne_zero) (s + 1) (u - s) (v - s)
  have hD := legPts_nodup 0 1 (Or.inr one_ne_zero) (s + 1) (u + 1) (v - s)
  have hAB : (legPts (-1) 0 s u v ++ legPts 0 (-1) s (u - s) v).Nodup := by
    rw [List.nodup_append]
    refine ⟨hA, hB, ?_⟩
    intro p hp1 hp2
    rw [mem_legPts_mx] at hp1
    rw [mem_legPts_my] at hp2
    omega
  have hABC : ((legPts (-1) 0 s u v ++ legPts 0 (-1) s (u - s) v) ++
      legPts 1 0 (s + 1) (u - s) (v - s)).Nodup := by
    rw [List.nodup_append]
    refine ⟨hAB, hC, ?_⟩
    intro p hp1 hp2
    rw [List.mem_append] at hp1
    rw [mem_legPts_px] at hp2
    push_cast at hp2
    rcases hp1 with hp1 | hp1
    · rw [mem_legPts_mx] at hp1
      omega
    · rw [mem_legPts_my] at hp1
      omega
  rw [List.nodup_append]
  refine ⟨hABC, hD, ?_⟩
  intro p hp1 hp2
  rw [List.mem_append, List.mem_append] at hp1
  rw [mem_legPts_py] at hp2
  push_cast at hp2
  rcases hp1 with (hp1 | hp1) | hp1
  · rw [mem_legPts_mx] at hp1
    omega
  · rw [mem_legPts_my] at hp1
    omega
  · rw [mem_legPts_px] at hp1
    push_cast at hp1
    omega

/-- Invariant of the counterclockwise idealized spiral after `m` complete
rings: the mirror image of the clockwise invariant. -/
theorem spiral_inv_ccw (m : Nat) :
    ∀ a b : Int,
      ((a, b) :: idealIter false m 1 a b).Nodup ∧
      (∀ p : Int × Int, p ∈ (a, b) :: idealIter false m 1 a b ↔
        (a - m ≤ p.1 ∧ p.1 ≤ a + m ∧ b - m ≤ p.2 ∧ p.2 ≤ b + m ∧
          ¬(p.2 = b + m ∧ p.1 ≤ a + m - 1))) := by
  induction m with
  | zero =>
    intro a b
    constructor
    · simp [idealIter]
    · intro p
      simp only [idealIter, List.mem_cons, List.not_mem_nil, or_false]
      push_cast
      constructor
      · rintro rfl
        simp
      · intro hp
        have h1 : p.1 = a := by omega
        have h2 : p.2 = b := by omega
        obtain ⟨p1, p2⟩ := p
        simp only at h1 h2
        rw [h1, h2]
  | succ m ih =>
    intro a b
    obtain ⟨ihN, ihM⟩ := ih a b
    have hsnoc := idealIter_snoc false m 1 a b
    simp only [Bool.false_eq_true, if_false, neg_mul, one_mul, sub_neg_eq_add] at hsnoc
    constructor
    · rw [hsnoc, List.nodup_cons]
      constructor
      · rw [List.mem_append]
        rintro (h | h)
        · exact (List.nodup_cons.mp ihN).1 h
        · rw [mem_ring_ccw] at h
          push_cast at h
          omega
      · rw [List.nodup_append]
        refine ⟨(List.nodup_cons.mp ihN).2, nodup_ring_ccw _ _ _, ?_⟩
        intro p hpOld hpR
        have hpF := (ihM p).mp (List.mem_cons_of_mem _ hpOld)
        rw [mem_ring_ccw] at hpR
        push_cast at hpF hpR
        omega
    · intro p
      rw [hsnoc]
      simp only [List.mem_cons, List.mem_append]
      have hold := ihM p
      rw [List.mem_cons] at hold
      rw [← or_assoc, hold, mem_ring_ccw]
      push_cast
      omega

theorem inBounds_iff (w h : Nat) (p : Int × Int) :
    inBounds w h p = true ↔
      (0 ≤ p.1 ∧ p.1 < (w : Int) ∧ 0 ≤ p.2 ∧ p.2 < (h : Int)) := by
  simp [inBounds, and_assoc]

/-- C1: for every width ≥ 1, height ≥ 1 and either direction,
`generate_spiral_coordinates` returns exactly `width * height` coordinates,
each in bounds, with no duplicates and no omissions — a permutation of all
pixel coordinates, including for non-square images. -/
theorem generate_spiral_coordinates_permutation (w h : Nat) (cw : Bool)
    (hw : 1 ≤ w) (hh : 1 ≤ h) :
    (generate_spiral_coordinates w h cw).length = w * h ∧
    (generate_spiral_coordinates w h cw).Nodup ∧
    (∀ p ∈ generate_spiral_coordinates w h cw,
      0 ≤ p.1 ∧ p.1 < (w : Int) ∧ 0 ≤ p.2 ∧ p.2 < (h : Int)) ∧
    (∀ i j : Nat, i < w → j < h →
      ((i : Int), (j : Int)) ∈ generate_spiral_coordinates w h cw) := by
  have hwh : 1 ≤ w * h := Nat.mul_pos hw hh
  set cx : Int := ((w / 2 : Nat) : Int) with hcx
  set cy : Int := ((h / 2 : Nat) : Int) with hcy
  set full : List (Int × Int) := (cx, cy) :: idealIter cw (w + h) 1 cx cy with hfull
  have hnodup : full.Nodup := by
    rw [hfull]
    cases cw
    · exact (spiral_inv_ccw (w + h) cx cy).1
    · exact (spiral_inv_cw (w + h) cx cy).1
  have hcover : ∀ i j : Nat, i < w → j < h → ((i : Int), (j : Int)) ∈ full := by
    intro i j hi hj
    rw [hfull]
    cases cw
    · refine ((spiral_inv_ccw (w + h) cx cy).2 _).mpr ?_
      push_cast
      omega
    · refine ((spiral_inv_cw (w + h) cx cy).2 _).mpr ?_
      push_cast
      omega
  set filtered : List (Int × Int) := full.filter (inBounds w h) with hfiltered
  have hfnodup : filtered.Nodup := hnodup.filter _
  have hrectmem : ∀ i j : Nat, i < w → j < h →
      ((i : Int), (j : Int)) ∈ filtered := by
    intro i j hi hj
    rw [hfiltered, List.mem_filter]
    refine ⟨hcover i j hi hj, ?_⟩
    rw [inBounds_iff]
    refine ⟨by positivity, by simpa using hi, by positivity, by simpa using hj⟩
  have hinBmem : ∀ p ∈ filtered,
      0 ≤ p.1 ∧ p.1 < (w : Int) ∧ 0 ≤ p.2 ∧ p.2 < (h : Int) := by
    intro p hp
    rw [hfiltered, List.mem_filter] at hp
    exact (inBounds_iff w h p).mp hp.2
  have hinj : Function.Injective
      (fun q : Nat × Nat => (((q.1 : Int), (q.2 : Int)) : Int × Int)) := by
    intro q1 q2 hq
    simp only [Prod.mk.injEq] at hq
    exact Prod.ext (by exact_mod_cast hq.1) (by exact_mod_cast hq.2)
  have hlen : filtered.length = w * h := by
    have hset : filtered.toFinset =
        Finset.image (fun q : Nat × Nat => (((q.1 : Int), (q.2 : Int)) : Int × Int))
          (Finset.range w ×ˢ Finset.range h) := by
      ext p
      simp only [List.mem_toFinset, Finset.mem_image, Finset.mem_product,
        Finset.mem_range]
      constructor
      · intro hp
        obtain ⟨hb1, hb2, hb3, hb4⟩ := hinBmem p hp
        refine ⟨(p.1.toNat, p.2.toNat), ⟨by omega, by omega⟩, ?_⟩
        obtain ⟨p1, p2⟩ := p
        simp only [Prod.mk.injEq]
        constructor
        · simp only at hb1
          omega
        · simp only at hb3
          omega
      · rintro ⟨⟨i, j⟩, ⟨hi, hj⟩, rfl⟩
        exact hrectmem i j hi hj
    have hcard1 : filtered.toFinset.card = filtered.length :=
      List.toFinset_card_of_nodup hfnodup
    rw [hset, Finset.card_image_of_injective _ hinj, Finset.card_product,
      Finset.card_range, Finset.card_range] at hcard1
    omega
  have hcenter : inBounds w h (cx, cy) = true := by
    rw [inBounds_iff]
    refine ⟨?_, ?_, ?_, ?_⟩ <;> simp only [hcx, hcy] <;> push_cast <;> omega
  have hfeq : filtered =
      (cx, cy) :: (idealIter cw (w + h) 1 cx cy).filter (inBounds w h) := by
    rw [hfiltered, hfull, List.filter_cons_of_pos hcenter]
  have hgen : generate_spiral_coordinates w h cw = filtered := by
    simp only [generate_spiral_coordinates, spiralFuel]
    rw [← hcx, ← hcy]
    rw [spiralWhile_take w h cw (w + h) 1 cx cy [(cx, cy)] (by simp; omega)
      (by rw [List.singleton_append, ← hfeq, hlen])]
    rw [List.singleton_append, ← hfeq, ← hlen, List.take_length]
  refine ⟨by rw [hgen, hlen], by rw [hgen]; exact hfnodup, ?_, ?_⟩
  · intro p hp
    rw [hgen] at hp
    exact hinBmem p hp
  · intro i j hi hj
    rw [hgen]
    exact hrectmem i j hi hj

theorem generate_spiral_coordinates_permutation_witness :
    (generate_spiral_coordinates 3 2 true).length = 3 * 2 ∧
    (generate_spiral_coordinates 2 3 false).Nodup ∧
    ((0 : Int), (1 : Int)) ∈ generate_spiral_coordinates 3 2 true :=
  ⟨(generate_spiral_coordinates_permutation 3 2 true (by decide) (by decide)).1,
   (generate_spiral_coordinates_permutation 2 3 false (by decide) (by decide)).2.1,
   (generate_spiral_coordinates_permutation 3 2 true (by decide) (by decide)).2.2.2
     0 1 (by decide) (by decide)⟩

/-! ### C2 — AES key normalization -/

/-- Helper: the exact length behaviour of the key normalization — keys of
24–31 bytes pass through unchanged because `ljust(24)` never shortens. -/
theorem normalize_key_length (key : List Nat) :
    (normalize_key key).length =
      if key.length < 24 then 16
      else if key.length < 32 then key.length
      else 32 := by
  unfold normalize_key
  split_ifs with h1 h2 h3 h4 h5 <;> simp_all <;> omega

/-- C2: the claim fails on the code — a 25-byte key is left at 25 bytes by
the normalization (the `ljust(24)` branch is a no-op for keys longer than 24
bytes), which is not a supported block-cipher key size, and `aes_decrypt`
consequently raises (modelled `none`) instead of decrypting.  This
contradicts the code's own comment (`Ensure key is correct length (16, 24,
or 32 bytes for AES)`) and the spec. -/
theorem aes_key_normalization_bug :
    (normalize_key (List.replicate 25 97)).length = 25 ∧
    ¬((normalize_key (List.replicate 25 97)).length = 16 ∨
      (normalize_key (List.replicate 25 97)).length = 24 ∨
      (normalize_key (List.replicate 25 97)).length = 32) ∧
    aes_decrypt (List.replicate 16 0) (List.replicate 25 97) none = none := by
  refine ⟨by decide, by decide, ?_⟩
  unfold aes_decrypt
  rw [if_pos (by decide)]

/-! ### C4 — strict bitstream decoding -/

theorem isPrintableByte_ne_zero {v : Nat} (h : isPrintableByte v = true) : v ≠ 0 := by
  simp [isPrintableByte] at h
  omega

/-- C4 counterexample: on the 24-bit stream spelling bytes `[65, 1, 66]`
(`'A'`, a non-printable byte, `'B'`), the strict loop produces
`ascii_text = "AB"` — the printable byte `66` after the non-printable byte
`1` is still included — whereas the unbroken printable prefix of the byte
sequence is just `"A"`. -/
theorem extract_strict_claim_counterexample :
    extract_strict
        [0, 1, 0, 0, 0, 0, 0, 1, 0, 0, 0, 0, 0, 0, 0, 1, 0, 1, 0, 0, 0, 0, 1, 0] =
      ([65, 1, 66], [65, 66], true) ∧
    ([65, 1, 66].takeWhile isPrintableByte = [65]) ∧
    [65, 66] ≠ [65] := by decide

/-- C4 (amended): in strict decoding, byte extraction stops at the first null
byte (which is itself the last extracted byte); a non-null byte outside the
printable set sets the `possibly_corrupted` flag without stopping extraction;
and `ascii_text` is the concatenation of *all* printable bytes occurring
before the first null byte — non-printable bytes are skipped, so printable
characters after a corrupt byte are still included (the text is not in
general the unbroken printable prefix). -/
theorem extract_strict_spec (bits : List Nat) :
    (extract_strict bits).1 =
      (fullBytes bits).takeWhile (fun v => v ≠ 0) ++
        (if (fullBytes bits).any (fun v => v = 0) then [0] else []) ∧
    (extract_strict bits).2.1 =
      ((fullBytes bits).takeWhile (fun v => v ≠ 0)).filter isPrintableByte ∧
    (extract_strict bits).2.2 =
      ((fullBytes bits).takeWhile (fun v => v ≠ 0)).any (fun v => ¬isPrintableByte v) := by
  induction bits using extract_strict.induct with
  | case1 b0 b1 b2 b3 b4 b5 b6 b7 rest v hp ih =>
    have hv0 : byteOfBits [b0, b1, b2, b3, b4, b5, b6, b7] ≠ 0 :=
      isPrintableByte_ne_zero hp
    obtain ⟨ih1, ih2, ih3⟩ := ih
    simp only [extract_strict, fullBytes]
    rw [if_pos hp]
    refine ⟨?_, ?_, ?_⟩
    · simp [ih1, hv0]
    · simp [ih2, hv0, hp]
    · simp [ih3, hv0, hp]
  | case2 b0 b1 b2 b3 b4 b5 b6 b7 rest v hp hz =>
    have hz' : byteOfBits [b0, b1, b2, b3, b4, b5, b6, b7] = 0 := hz
    simp only [extract_strict, fullBytes]
    rw [if_neg hp, if_pos hz]
    refine ⟨?_, ?_, ?_⟩
    · simp [hz']
    · simp [hz']
    · simp [hz']
  | case3 b0 b1 b2 b3 b4 b5 b6 b7 rest v hp hz ih =>
    obtain ⟨ih1, ih2, ih3⟩ := ih
    simp only [extract_strict, fullBytes]
    rw [if_neg hp, if_neg hz]
    refine ⟨?_, ?_, ?_⟩
    · simp [ih1, hz]
    · simp [ih2, hz, hp]
    · simp [ih3, hz, hp]
  | case4 t hshape =>
    match t, hshape with
    | b0 :: b1 :: b2 :: b3 :: b4 :: b5 :: b6 :: b7 :: rest, hshape =>
      exact absurd rfl (hshape b0 b1 b2 b3 b4 b5 b6 b7 rest)
    | [], _ => exact ⟨rfl, rfl, rfl⟩
    | [b0], _ => exact ⟨rfl, rfl, rfl⟩
    | [b0, b1], _ => exact ⟨rfl, rfl, rfl⟩
    | [b0, b1, b2], _ => exact ⟨rfl, rfl, rfl⟩
    | [b0, b1, b2, b3], _ => exact ⟨rfl, rfl, rfl⟩
    | [b0, b1, b2, b3, b4], _ => exact ⟨rfl, rfl, rfl⟩
    | [b0, b1, b2, b3, b4, b5], _ => exact ⟨rfl, rfl, rfl⟩
    | [b0, b1, b2, b3, b4, b5, b6], _ => exact ⟨rfl, rfl, rfl⟩

/-! ### C9 — single-layer chain equals base64 decode -/

/-- C3 counterexample: `"#QQ=="` contains `'#'` — a non-whitespace character
outside the base64 alphabet/padding set — yet `decode_base64` succeeds with
`"A"`, because `b64decode(validate=False)` discards such characters. -/
theorem decode_base64_alphabet_counterexample :
    ((pyStrip (pyStr "#QQ==")).any
        (fun c => ¬((b64Char c).isSome || c = 61 || isSpaceCode c))) = true ∧
    decode_base64 (pyStr "#QQ==") = some (pyStr "A") := by decide

theorem b64Char_61 : b64Char 61 = none := by decide

theorem b64Char_isSome_lt (c : Nat) (h : (b64Char c).isSome) : c < 128 := by
  unfold b64Char at h
  split_ifs at h with h1 h2 h3 h4 h5
  · omega
  · omega
  · omega
  · omega
  · omega
  · simp at h

theorem b64Char_isSome_not_space (c : Nat) (h : (b64Char c).isSome) :
    isSpaceCode c = false := by
  have hr : (65 ≤ c ∧ c ≤ 90) ∨ (97 ≤ c ∧ c ≤ 122) ∨ (48 ≤ c ∧ c ≤ 57) ∨
      c = 43 ∨ c = 47 := by
    unfold b64Char at h
    split_ifs at h with h1 h2 h3 h4 h5
    · exact Or.inl h1
    · exact Or.inr (Or.inl h2)
    · exact Or.inr (Or.inr (Or.inl h3))
    · exact Or.inr (Or.inr (Or.inr (Or.inl h4)))
    · exact Or.inr (Or.inr (Or.inr (Or.inr h5)))
    · simp at h
  simp only [isSpaceCode]
  simp only [Bool.or_eq_false_iff, decide_eq_false_iff_not, Bool.and_eq_false_iff,
    decide_eq_false_iff_not, not_le]
  omega

theorem dropWhile_eq_self_of_none {p : Nat → Bool} (l : List Nat)
    (h : ∀ c ∈ l, p c = false) : l.dropWhile p = l := by
  cases l with
  | nil => rfl
  | cons c rest =>
    rw [List.dropWhile_cons, if_neg]
    simp [h c (List.mem_cons_self c rest)]

theorem pyStrip_eq_self (s : List Nat) (h : ∀ c ∈ s, isSpaceCode c = false) :
    pyStrip s = s := by
  unfold pyStrip
  rw [dropWhile_eq_self_of_none s h,
    dropWhile_eq_self_of_none s.reverse (fun c hc => h c (List.mem_reverse.mp hc)),
    List.reverse_reverse]

/-- Characters outside the base64 alphabet and `'='` are skipped by the
`a2b_base64` scan without touching its state. -/
theorem a2bLoop_filter (s : List Nat) :
    ∀ q l p acc, a2bLoop s q l p acc =
      a2bLoop (s.filter (fun c => (b64Char c).isSome || c = 61)) q l p acc := by
  induction s with
  | nil => intro q l p acc; rfl
  | cons c rest ih =>
    intro q l p acc
    by_cases hc : c = 61
    · subst hc
      rw [List.filter_cons_of_pos (by simp)]
      simp only [a2bLoop, if_pos rfl]
      split_ifs <;> first | rfl | exact ih _ _ _ _
    · cases hb : b64Char c with
      | none =>
        rw [List.filter_cons_of_neg (by simp [hb, hc])]
        simp only [a2bLoop, if_neg hc, hb]
        exact ih _ _ _ _
      | some v =>
        rw [List.filter_cons_of_pos (by simp [hb])]
        simp only [a2bLoop, if_neg hc, hb]
        cases q with
        | zero => exact ih _ _ _ _
        | succ q1 =>
          cases q1 with
          | zero => exact ih _ _ _ _
          | succ q2 =>
            cases q2 with
            | zero => exact ih _ _ _ _
            | succ q3 => exact ih _ _ _ _

/-- On a run of pure base64 data characters the scan fails exactly when the
character count leaves an incomplete final quantum. -/
theorem a2bLoop_pure_data (s : List Nat) :
    ∀ q l p acc, (∀ c ∈ s, (b64Char c).isSome) → q < 4 →
      (a2bLoop s q l p acc = none ↔ ¬(q + s.length) % 4 = 0) := by
  induction s with
  | nil =>
    intro q l p acc _ hq
    simp only [a2bLoop, List.length_nil]
    split_ifs with h0
    · subst h0; simp
    · simp; omega
  | cons c rest ih =>
    intro q l p acc hall hq
    have hc : (b64Char c).isSome := hall c (List.mem_cons_self c rest)
    have hc61 : ¬c = 61 := by
      intro h
      rw [h, b64Char_61] at hc
      simp at hc
    obtain ⟨v, hv⟩ := Option.isSome_iff_exists.mp hc
    have hrest : ∀ d ∈ rest, (b64Char d).isSome :=
      fun d hd => hall d (List.mem_cons_of_mem c hd)
    interval_cases q
    · simp only [a2bLoop, if_neg hc61, hv]
      rw [ih 1 v 0 acc hrest (by omega)]
      simp only [List.length_cons]
      constructor <;> intro h <;> omega
    · simp only [a2bLoop, if_neg hc61, hv]
      rw [ih 2 (v % 16) 0 ((l * 4 + v / 16) :: acc) hrest (by omega)]
      simp only [List.length_cons]
      constructor <;> intro h <;> omega
    · simp only [a2bLoop, if_neg hc61, hv]
      rw [ih 3 (v % 4) 0 ((l * 16 + v / 4) :: acc) hrest (by omega)]
      simp only [List.length_cons]
      constructor <;> intro h <;> omega
    · simp only [a2bLoop, if_neg hc61, hv]
      rw [ih 0 0 0 ((l * 64 + v) :: acc) hrest (by omega)]
      simp only [List.length_cons]
      constructor <;> intro h <;> omega

/-- C3 (amended): `decode_base64` discards characters outside the base64
alphabet/padding set instead of failing on them (first conjunct: the scan is
insensitive to their removal), and it signals failure (`None`) exactly for
genuinely malformed padding — on pure data-character input it fails when the
character count leaves an incomplete final quantum and succeeds when the
count is a multiple of four. -/
theorem decode_base64_malformed (s : List Nat) :
    (a2bLoop s 0 0 0 [] =
      a2bLoop (s.filter (fun c => (b64Char c).isSome || c = 61)) 0 0 0 []) ∧
    ((∀ c ∈ s, (b64Char c).isSome) → ¬s.length % 4 = 0 → decode_base64 s = none) ∧
    ((∀ c ∈ s, (b64Char c).isSome) → s.length % 4 = 0 → ∃ r, decode_base64 s = some r) := by
  refine ⟨a2bLoop_filter s 0 0 0 [], ?_, ?_⟩
  · intro hall hlen
    unfold decode_base64 b64decodeStr
    rw [pyStrip_eq_self s (fun c hc => b64Char_isSome_not_space c (hall c hc))]
    rw [if_pos]
    · rw [(a2bLoop_pure_data s 0 0 0 [] hall (by omega)).mpr (by omega)]
      rfl
    · exact List.all_eq_true.mpr
        (fun c hc => by simpa using b64Char_isSome_lt c (hall c hc))
  · intro hall hlen
    unfold decode_base64 b64decodeStr
    rw [pyStrip_eq_self s (fun c hc => b64Char_isSome_not_space c (hall c hc))]
    rw [if_pos]
    · cases ha : a2bLoop s 0 0 0 [] with
      | none =>
        exact absurd ((a2bLoop_pure_data s 0 0 0 [] hall (by omega)).mp ha) (by omega)
      | some r => exact ⟨utf8DecodeIgnore r, by simp [ha]⟩
    · exact List.all_eq_true.mpr
        (fun c hc => by simpa using b64Char_isSome_lt c (hall c hc))

theorem decode_base64_malformed_witness :
    decode_base64 (pyStr "QQQ") = none ∧ ∃ r, decode_base64 (pyStr "QQQQ") = some r :=
  ⟨(decode_base64_malformed (pyStr "QQQ")).2.1 (by decide) (by decide),
    (decode_base64_malformed (pyStr "QQQQ")).2.2 (by decide) (by decide)⟩

/-- C6 counterexample: on the empty string the base64 decode is attempted
(the character gate holds vacuously) and returns the non-null empty string,
yet `auto_detect_and_decode` returns no `base64` entry — the code keeps an
entry only for *truthy* (non-empty) results, not for every non-null one. -/
theorem auto_detect_nonnull_counterexample :
    b64Gate (pyStr "") = true ∧
    decode_base64 (pyStr "") = some [] ∧
    auto_detect_and_decode (pyStr "") = [] := by decide

/-- C6 (amended): `auto_detect_and_decode` returns an entry for a method
label if and only if that method's decode step was attempted under its stated
condition (base64 only when every character passes the alphabet/whitespace
gate; rot13 only when its output differs from the input; base64→rot13 only
when the base64 entry exists; rot13→base64 only when the rot13 output is
non-empty) *and* produced a truthy — non-`None` and non-empty — result. -/
theorem auto_detect_entries (s : List Nat) :
    ((auto_detect_and_decode s).lookup "base64" ≠ none ↔
      b64Gate s = true ∧ ∃ d, decode_base64 s = some d ∧ d ≠ []) ∧
    ((auto_detect_and_decode s).lookup "rot13" ≠ none ↔
      decode_rot13 s ≠ [] ∧ decode_rot13 s ≠ s) ∧
    ((auto_detect_and_decode s).lookup "base64_then_rot13" ≠ none ↔
      (b64Gate s = true ∧ ∃ d, decode_base64 s = some d ∧ d ≠ [] ∧
        decode_rot13 d ≠ [])) ∧
    ((auto_detect_and_decode s).lookup "rot13_then_base64" ≠ none ↔
      (decode_rot13 s ≠ [] ∧
        ∃ rb, decode_base64 (decode_rot13 s) = some rb ∧ rb ≠ [])) := by
  unfold auto_detect_and_decode
  by_cases hg : b64Gate s
  · simp only [hg, if_true]
    cases hb : decode_base64 s with
    | none =>
      simp only [List.nil_append]
      by_cases hrot : decode_rot13 s ≠ [] ∧ decode_rot13 s ≠ s
      · simp only [hrot, if_true]
        by_cases hre : decode_rot13 s = []
        · simp [hre] at hrot
        · simp only [hre, if_false]
          cases hrb : decode_base64 (decode_rot13 s) with
          | none => simp [List.lookup, hre, hrot]
          | some rb =>
            by_cases hrbe : rb = [] <;>
              simp [List.lookup, hre, hrot, hrbe]
      · simp only [hrot, if_false]
        by_cases hre : decode_rot13 s = []
        · simp [List.lookup, hre, hrot]
        · simp only [hre, if_false]
          cases hrb : decode_base64 (decode_rot13 s) with
          | none => simp [List.lookup, hre, hrot]
          | some rb =>
            by_cases hrbe : rb = [] <;>
              simp [List.lookup, hre, hrot, hrbe]
    | some d =>
      by_cases hd : d = []
      · simp only [hd, if_true, List.nil_append]
        by_cases hrot : decode_rot13 s ≠ [] ∧ decode_rot13 s ≠ s
        · simp only [hrot, if_true]
          by_cases hre : decode_rot13 s = []
          · simp [hre] at hrot
          · simp only [hre, if_false]
            cases hrb : decode_base64 (decode_rot13 s) with
            | none => simp [List.lookup, hre, hrot, hd]
            | some rb =>
              by_cases hrbe : rb = [] <;>
                simp [List.lookup, hre, hrot, hd, hrbe]
        · simp only [hrot, if_false]
          by_cases hre : decode_rot13 s = []
          · simp [List.lookup, hre, hrot, hd]
          · simp only [hre, if_false]
            cases hrb : decode_base64 (decode_rot13 s) with
            | none => simp [List.lookup, hre, hrot, hd]
            | some rb =>
              by_cases hrbe : rb = [] <;>
                simp [List.lookup, hre, hrot, hd, hrbe]
      · simp only [hd, if_false]
        by_cases hbr : decode_rot13 d = []
        · simp only [hbr, if_true]
          by_cases hrot : decode_rot13 s ≠ [] ∧ decode_rot13 s ≠ s
          · simp only [hrot, if_true]
            by_cases hre : decode_rot13 s = []
            · simp [hre] at hrot
            · simp only [hre, if_false]
              cases hrb : decode_base64 (decode_rot13 s) with
              | none => simp [List.lookup, hre, hrot, hd, hbr]
              | some rb =>
                by_cases hrbe : rb = [] <;>
                  simp [List.lookup, hre, hrot, hd, hbr, hrbe]
          · simp only [hrot, if_false]
            by_cases hre : decode_rot13 s = []
            · simp [List.lookup, hre, hrot, hd, hbr]
            · simp only [hre, if_false]
              cases hrb : decode_base64 (decode_rot13 s) with
              | none => simp [List.lookup, hre, hrot, hd, hbr]
              | some rb =>
                by_cases hrbe : rb = [] <;>
                  simp [List.lookup, hre, hrot, hd, hbr, hrbe]
        · simp only [hbr, if_false]
          by_cases hrot : decode_rot13 s ≠ [] ∧ decode_rot13 s ≠ s
          · simp only [hrot, if_true]
            by_cases hre : decode_rot13 s = []
            · simp [hre] at hrot
            · simp only [hre, if_false]
              cases hrb : decode_base64 (decode_rot13 s) with
              | none => simp [List.lookup, hre, hrot, hd, hbr]
              | some rb =>
                by_cases hrbe : rb = [] <;>
                  simp [List.lookup, hre, hrot, hd, hbr, hrbe]
          · simp only [hrot, if_false]
            by_cases hre : decode_rot13 s = []
            · simp [List.lookup, hre, hrot, hd, hbr]
            · simp only [hre, if_false]
              cases hrb : decode_base64 (decode_rot13 s) with
              | none => simp [List.lookup, hre, hrot, hd, hbr]
              | some rb =>
                by_cases hrbe : rb = [] <;>
                  simp [List.lookup, hre, hrot, hd, hbr, hrbe]
  · simp only [hg, if_false, Bool.false_eq_true]
    by_cases hrot : decode_rot13 s ≠ [] ∧ decode_rot13 s ≠ s
    · simp only [hrot, if_true]
      by_cases hre : decode_rot13 s = []
      · simp [hre] at hrot
      · simp only [hre, if_false]
        cases hrb : decode_base64 (decode_rot13 s) with
        | none => simp [List.lookup, hre, hrot, hg]
        | some rb =>
          by_cases hrbe : rb = [] <;>
            simp [List.lookup, hre, hrot, hg, hrbe]
    · simp only [hrot, if_false]
      by_cases hre : decode_rot13 s = []
      · simp [List.lookup, hre, hrot, hg]
      · simp only [hre, if_false]
        cases hrb : decode_base64 (decode_rot13 s) with
        | none => simp [List.lookup, hre, hrot, hg]
        | some rb =>
          by_cases hrbe : rb = [] <;>
            simp [List.lookup, hre, hrot, hg, hrbe]

/-- C9: `decode_multi_layer` with the single layer `"base64"` agrees with
`decode_base64` on every string, including the failure (`None`) cases. -/
theorem decode_multi_layer_single_base64 (s : List Nat) :
    decode_multi_layer s [pyStr "base64"] = decode_base64 s := by
  have hlow : (pyStr "base64").map pyLowerChar = pyStr "base64" := by decide
  unfold decode_multi_layer
  rw [if_pos hlow]
  cases h : decode_base64 s with
  | none => rfl
  | some r => rfl
